import Mathlib

/-!
# Verification of a Tic-Tac-Toe engine

Shallow embedding of the board/rules engine, the heuristic strategist
(`computer.move`) and the match orchestrator of `t3.py`, together with
theorems settling the specification's claims about them.

A Python board is a 9-element list whose cells hold `None`, `"X"` or `"O"`;
we model it as a `List (Option Mark)`. The Python functions translated here
are `game.winner`, `game.check_for_wins`, `game.check_for_twos`,
`game.check_move`, the body of `game.play`'s move application, and
`computer.move` (the nine Newell & Simon rules).
-/

/-- A player's marker, `"X"` or `"O"` in the Python source. -/
inductive Mark where
  | X : Mark
  | O : Mark
deriving DecidableEq, Repr

instance : Fintype Mark :=
  ⟨⟨{Mark.X, Mark.O}, by decide⟩, by intro x; cases x <;> decide⟩

/-- `player.other_mark`: `"XO"[mark == "X"]`. -/
def Mark.other : Mark → Mark
  | .X => .O
  | .O => .X

/-- One board cell: `None`, `"X"` or `"O"`. -/
abbrev Cell := Option Mark

/-- The Python board `self.board`, a list of 9 cells. -/
abbrev Board := List Cell

/-- `self.board[i]` (all accesses in the source use indices 0–8 on a
9-element list, so the `getD` default is never hit on well-formed boards). -/
def cellAt (b : Board) (i : Nat) : Cell := b.getD i none

/-- `game.threes`: the 8 winning lines, in source declaration order
(3 rows, 3 columns, 2 diagonals). -/
def threes : List (List Nat) :=
  [[0, 1, 2], [3, 4, 5], [6, 7, 8],
   [0, 3, 6], [1, 4, 7], [2, 5, 8],
   [0, 4, 8], [2, 4, 6]]

/-- `game.winner`: for `m` in `["X","O"]`, return `m` if some line is all
`m`; Python returns `""` when there is no winner, modelled as `none`. -/
def winner (b : Board) : Option Mark :=
  [Mark.X, Mark.O].find? fun m =>
    threes.any fun t => t.all fun sq => cellAt b sq == some m

/-- The loop body of `game.check_for_wins` over a remaining list of lines:
if a line holds exactly two `m`s, return its first empty cell if it has
one, otherwise keep scanning. -/
def winScan (b : Board) (m : Mark) : List (List Nat) → Option Nat
  | [] => none
  | t :: rest =>
    if t.countP (fun c => cellAt b c == some m) == 2 then
      match t.find? (fun c => cellAt b c == none) with
      | some cell => some cell
      | none => winScan b m rest
    else winScan b m rest

/-- `game.check_for_wins(mark)`: location of the first winning move for
`mark`, scanning `threes` in declaration order, or `None`. -/
def check_for_wins (b : Board) (m : Mark) : Option Nat := winScan b m threes

/-- One dictionary update `twos[cell] += 1` / `twos[cell] = 1` on an
association list kept in insertion order, as a Python dict is. -/
def twosInsert (l : List (Nat × Nat)) (c : Nat) : List (Nat × Nat) :=
  if l.any (fun p => p.1 == c) then
    l.map fun p => if p.1 == c then (p.1, p.2 + 1) else p
  else l ++ [(c, 1)]

/-- The inner loop of `game.check_for_twos`: bump the counter of every
empty cell of line `t`. -/
def twosLine (b : Board) (acc : List (Nat × Nat)) (t : List Nat) : List (Nat × Nat) :=
  t.foldl (fun a c => if cellAt b c == none then twosInsert a c else a) acc

/-- The line test of `game.check_for_twos`:
`diag = [board[cell] for cell in three]; mark in diag and diag.count(None) == 2`. -/
def lineHasTwoGaps (b : Board) (m : Mark) (t : List Nat) : Bool :=
  let diag := t.map (cellAt b)
  diag.contains (some m) && diag.count none == 2

/-- The outer loop of `game.check_for_twos` over a remaining list of
lines. -/
def twosScan (b : Board) (m : Mark) (acc : List (Nat × Nat)) :
    List (List Nat) → List (Nat × Nat)
  | [] => acc
  | t :: rest =>
    if lineHasTwoGaps b m t then twosScan b m (twosLine b acc t) rest
    else twosScan b m acc rest

/-- `game.check_for_twos(mark)`: multiplicity of twos created by playing at
each location, as an insertion-ordered association list (Python dict). -/
def check_for_twos (b : Board) (m : Mark) : List (Nat × Nat) := twosScan b m [] threes

/-- Python `twos[w]` guarded by `w in twos`. -/
def twosLookup (l : List (Nat × Nat)) (c : Nat) : Option Nat :=
  (l.find? fun p => p.1 == c).map Prod.snd

/-! ## The heuristic strategist (`computer.move`), rule by rule

Rules 1 and 2 are `check_for_wins` on self's and the opponent's mark.
Rules 3–9 are named `rule3` … `rule9` below; `move` chains them in order,
returning `none` (Python falls off the end of the function) when no rule
applies. Each hypothetical game `dc(match)` is a value copy of the board
with one cell overwritten (`List.set`). -/

/-- The fork-cell set of rule 3/5: all empty cells lying on a line that
holds exactly two `m`s. The Python set is modelled as a duplicate-free list
(the `contains` guard matches `set.add`); only its size is consumed. -/
def forkCells (b : Board) (m : Mark) : List Nat :=
  threes.foldl
    (fun cells t =>
      if t.countP (fun c => cellAt b c == some m) == 2 then
        t.foldl (fun cs c =>
          if cellAt b c == none && !(cs.contains c) then cs ++ [c] else cs) cells
      else cells)
    []

/-- Rule 3 (create a fork): the first empty `i` whose hypothetical board
(self's mark placed at `i`) shows exactly two fork cells for self. -/
def rule3 (b : Board) (m : Mark) : Option Nat :=
  (List.range 9).find? fun i =>
    cellAt b i == none && (forkCells (b.set i (some m)) m).length == 2

/-- Rule 4's per-candidate test, `True` when the candidate is played rather
than skipped: the implied win cell `w` of the hypothetical board must not
be an opponent two of multiplicity above 1 there. -/
def rule4Keep (b : Board) (m : Mark) (i : Nat) : Bool :=
  let hypo := b.set i (some m)
  match check_for_wins hypo m with
  | none => true
  | some w =>
    match twosLookup (check_for_twos hypo m.other) w with
    | none => true
    | some k => decide (k ≤ 1)

/-- Rule 4 (force defense): first key of `check_for_twos(self)`, in dict
insertion order, passing `rule4Keep`. -/
def rule4 (b : Board) (m : Mark) : Option Nat :=
  ((check_for_twos b m).map Prod.fst).find? (rule4Keep b m)

/-- Rule 5 (block a fork): like rule 3 with the opponent's mark. -/
def rule5 (b : Board) (m : Mark) : Option Nat :=
  (List.range 9).find? fun i =>
    cellAt b i == none && (forkCells (b.set i (some m.other)) m.other).length == 2

/-- Rule 6 (center). -/
def rule6 (b : Board) : Option Nat :=
  if cellAt b 4 == none then some 4 else none

/-- The `maps = {0:8, 8:0, 2:6, 6:2}` dictionary of rule 7 (only ever
applied to corners). -/
def oppositeCorner : Nat → Nat
  | 0 => 8
  | 8 => 0
  | 2 => 6
  | _ => 2

/-- Rule 7 (opposite corner): first corner, in order `[0,2,6,8]`, held by
the opponent whose opposite corner is empty; play that opposite corner. -/
def rule7 (b : Board) (m : Mark) : Option Nat :=
  (([0, 2, 6, 8] : List Nat).find? fun c =>
      cellAt b c == some m.other && cellAt b (oppositeCorner c) == none).map
    oppositeCorner

/-- Rule 8 (empty corner): first empty cell among `[0,2,6,8]`. -/
def rule8 (b : Board) : Option Nat :=
  (([0, 2, 6, 8] : List Nat).filter fun c => cellAt b c == none).head?

/-- Rule 9 (side): first empty cell among `[1,3,5,7]`. -/
def rule9 (b : Board) : Option Nat :=
  (([1, 3, 5, 7] : List Nat).filter fun c => cellAt b c == none).head?

/-- `computer.move` from rule 5 on (split out so that the rule-4
fall-through can be named). -/
def moveFrom5 (b : Board) (m : Mark) : Option Nat :=
  match rule5 b m with
  | some c => some c
  | none =>
    match rule6 b with
    | some c => some c
    | none =>
      match rule7 b m with
      | some c => some c
      | none =>
        match rule8 b with
        | some c => some c
        | none => rule9 b

/-- `computer.move(match)`: the nine ordered rules, first applicable
result; `none` when every rule falls through. -/
def move (b : Board) (m : Mark) : Option Nat :=
  match check_for_wins b m with
  | some c => some c
  | none =>
    match check_for_wins b m.other with
    | some c => some c
    | none =>
      match rule3 b m with
      | some c => some c
      | none =>
        match rule4 b m with
        | some c => some c
        | none => moveFrom5 b m

/-! ## The match orchestrator (`game`) -/

/-- The mutable state of a `game` instance that play touches: the board
and the move counter. -/
structure GameState where
  board : Board
  moves : Nat
deriving DecidableEq, Repr

/-- `computer.move` with the live match state threaded explicitly, as the
Python method receives it: every hypothetical game of rules 3–5 is built
by `dc(match)` (a value copy, here `List.set` on the copy inside
`rule3`/`rule4`/`rule5`), and the live state is handed back unchanged
beside the chosen cell. -/
def computerMoveSt (s : GameState) (m : Mark) : Option Nat × GameState :=
  match check_for_wins s.board m with
  | some c => (some c, s)
  | none =>
    match check_for_wins s.board m.other with
    | some c => (some c, s)
    | none =>
      match rule3 s.board m with
      | some c => (some c, s)
      | none =>
        match rule4 s.board m with
        | some c => (some c, s)
        | none => (moveFrom5 s.board m, s)

/-- `game.check_move(move)`: an in-range integer aimed at an empty cell.
The Python `type(move) != int` test is absorbed by typing the proposal as
an integer; truthiness of `self.board[move]` is `Option.isSome`. -/
def check_move (b : Board) (m : Int) : Bool :=
  if m > 8 || m < 0 then false
  else if (cellAt b m.toNat).isSome then false
  else true

/-- `["X", "O"][self.moves % 2]` in `game.play`. -/
def moveMark (moves : Nat) : Mark :=
  if moves % 2 == 0 then Mark.X else Mark.O

/-- The application step of `game.play`:
`self.board[m] = ["X","O"][self.moves % 2]; self.moves += 1`. -/
def applyMove (s : GameState) (m : Nat) : GameState :=
  { board := s.board.set m (some (moveMark s.moves)), moves := s.moves + 1 }

/-- Number of occupied cells of a board (`9 - self.board.count(None)` on a
9-cell board). -/
def occupiedCount (b : Board) : Nat := b.countP fun c => c.isSome

/-- The fresh board of `game.__init__`: `[None for x in range(9)]`. -/
def initBoard : Board := List.replicate 9 none

/-- The fresh move counter of `game.__init__`:
`9 - self.board.count(None)`. -/
def initMoves : Nat := 9 - initBoard.count none

/-- The inner retry loop of `game.play`, fed an explicit stream of
proposals: the first proposal passing `check_move` is applied; every
rejected proposal leaves the state untouched and the next proposal is
requested with the same move counter (hence the same participant). -/
def playTurn (s : GameState) : List Int → Option GameState
  | [] => none
  | m :: rest =>
    if check_move s.board m then some (applyMove s m.toNat) else playTurn s rest

/-! ## Notions used to state the claims -/

/-- Line `t` is fully occupied by mark `m` on board `b`. -/
def lineFullFor (b : Board) (t : List Nat) (m : Mark) : Bool :=
  t.all fun c => cellAt b c == some m

/-- Line `t` is fully occupied by a single mark. -/
def lineFull (b : Board) (t : List Nat) : Bool :=
  lineFullFor b t Mark.X || lineFullFor b t Mark.O

/-- The candidate test of rule 4 as the specification words it: the
implied win cell `w` of the hypothetical board must not be a key of the
opponent's twos mapping there with multiplicity greater than 1. -/
def rule4SpecKeep (b : Board) (m : Mark) (i : Nat) : Prop :=
  ¬ ∃ w, check_for_wins (b.set i (some m)) m = some w ∧
      ∃ k, twosLookup (check_for_twos (b.set i (some m)) m.other) w = some k ∧ 1 < k

/-- A line qualifying for `c` in the sense of claim C4: it contains `c`,
`m` occupies exactly one of its cells, and the other two cells (`c` among
them) are empty. -/
def qualLine (b : Board) (m : Mark) (c : Nat) (t : List Nat) : Bool :=
  t.contains c && (cellAt b c == none) &&
    (t.countP (fun x => cellAt b x == some m) == 1) &&
    (t.countP (fun x => cellAt b x == none) == 2)

/-- Number of qualifying lines through `c` (claim C4's specified
multiplicity). -/
def qualCount (b : Board) (m : Mark) (c : Nat) : Nat :=
  threes.countP (qualLine b m c)

/-! ## Concrete boards used as test inputs -/

/-- The board of end-to-end scenario 2: `[X,O,X, O,X,O, _,_,_]`. -/
def scenario2Board : Board :=
  [some Mark.X, some Mark.O, some Mark.X,
   some Mark.O, some Mark.X, some Mark.O,
   none, none, none]

/-- A board on which X has already completed the first row while O holds
two cells of the middle row; reachable by X0 O3 X1 O4 X2. -/
def xWonBoard : Board :=
  [some Mark.X, some Mark.X, some Mark.X,
   some Mark.O, some Mark.O, none,
   none, none, none]

/-- A fully occupied board with no winning line. -/
def fullDrawBoard : Board :=
  [some Mark.X, some Mark.O, some Mark.X,
   some Mark.X, some Mark.O, some Mark.O,
   some Mark.O, some Mark.X, some Mark.X]

/-! ## Theorems -/

/-- C5 counterexample: on the scenario-2 board with self = X, the
strategist does not return cell 6 — the diagonal `[0,4,8]` precedes the
column `[2,4,6]` in `threes`, so rule 1 fires on it first. -/
theorem C5_counterexample : move scenario2Board Mark.X ≠ some 6 := by decide

/-- C5 (amended): on the board `[X,O,X, O,X,O, _,_,_]` with self = X, the
strategist's move returns cell 8, found by rule 1 as the completion of the
diagonal `[0,4,8]`, the first line holding two `X`s with an empty third
cell in declaration order. -/
theorem C5_amended :
    move scenario2Board Mark.X = some 8 ∧
      check_for_wins scenario2Board Mark.X = some 8 := by decide

/-! ### Basic board lemmas -/

theorem cellAt_set_self (b : Board) (k : Nat) (v : Cell) (hk : k < b.length) :
    cellAt (b.set k v) k = v := by
  induction b generalizing k with
  | nil => simp at hk
  | cons a t ih =>
    cases k with
    | zero => rfl
    | succ k => simpa [cellAt, List.getD] using ih k (by simpa using hk)

theorem cellAt_set_ne (b : Board) (k j : Nat) (v : Cell) (h : j ≠ k) :
    cellAt (b.set k v) j = cellAt b j := by
  induction b generalizing k j with
  | nil => rfl
  | cons a t ih =>
    cases k with
    | zero =>
      cases j with
      | zero => exact absurd rfl h
      | succ j => rfl
    | succ k =>
      cases j with
      | zero => rfl
      | succ j => simpa [cellAt, List.getD] using ih k j (by omega)

theorem threes_shape : ∀ t ∈ threes, ∃ i j k : Nat,
    t = [i, j, k] ∧ i ≠ j ∧ i ≠ k ∧ j ≠ k ∧ i < 9 ∧ j < 9 ∧ k < 9 := by
  intro t ht
  fin_cases ht <;>
    exact ⟨_, _, _, rfl, by omega, by omega, by omega, by omega, by omega, by omega⟩

theorem threes_nodup : ∀ t ∈ threes, t.Nodup := by decide

/-! ### `check_for_wins` lemmas -/

theorem winScan_eq_some {b : Board} {m : Mark} {L : List (List Nat)} {c : Nat}
    (h : winScan b m L = some c) :
    ∃ t ∈ L, t.countP (fun x => cellAt b x == some m) = 2 ∧
      t.find? (fun x => cellAt b x == none) = some c := by
  induction L with
  | nil => simp [winScan] at h
  | cons t rest ih =>
    rw [winScan] at h
    split at h
    · rename_i h2
      split at h
      · rename_i cell hf
        cases h
        exact ⟨t, by simp, by simpa using h2, hf⟩
      · obtain ⟨t', ht', hrest⟩ := ih h
        exact ⟨t', by simp [ht'], hrest⟩
    · obtain ⟨t', ht', hrest⟩ := ih h
      exact ⟨t', by simp [ht'], hrest⟩

theorem check_for_wins_cell_empty {b : Board} {m : Mark} {c : Nat}
    (h : check_for_wins b m = some c) : cellAt b c = none := by
  obtain ⟨t, _, _, hf⟩ := winScan_eq_some h
  simpa using List.find?_some hf

theorem check_for_wins_cell_mem {b : Board} {m : Mark} {c : Nat}
    (h : check_for_wins b m = some c) :
    ∃ t ∈ threes, t.countP (fun x => cellAt b x == some m) = 2 ∧ c ∈ t := by
  obtain ⟨t, ht, h2, hf⟩ := winScan_eq_some h
  exact ⟨t, ht, h2, List.mem_of_find?_eq_some hf⟩

theorem triple_other_cells {b : Board} {m : Mark} {i j k c : Nat}
    (h2 : ([i, j, k] : List Nat).countP (fun x => cellAt b x == some m) = 2)
    (hc : cellAt b c = none) (hmem : c ∈ ([i, j, k] : List Nat)) :
    ∀ x ∈ ([i, j, k] : List Nat), x ≠ c → cellAt b x = some m := by
  intro x hx hxc
  have hcm : (cellAt b c == some m) = false := by simp [hc]
  have hx3 : x = i ∨ x = j ∨ x = k := by simpa using hx
  have hc3 : c = i ∨ c = j ∨ c = k := by simpa using hmem
  simp only [List.countP_cons, List.countP_nil] at h2
  rcases hbi : (cellAt b i == some m) <;> rcases hbj : (cellAt b j == some m) <;>
    rcases hbk : (cellAt b k == some m) <;>
      simp only [hbi, hbj, hbk, if_true, if_false] at h2 <;> try omega
  all_goals
    rcases hx3 with rfl | rfl | rfl <;> rcases hc3 with h' | h' | h' <;>
      first
        | exact eq_of_beq hbi
        | exact eq_of_beq hbj
        | exact eq_of_beq hbk
        | exact absurd h'.symm hxc
        | (rw [h'] at hcm; simp [hbi, hbj, hbk] at hcm)

/-- C1 counterexample: on the reachable board `[X,X,X, O,O,_, _,_,_]`,
`check_for_wins("O")` returns cell 5, but placing O there yields a board on
which `winner()` returns X (the X scan precedes the O scan), not O. -/
theorem C1_counterexample :
    check_for_wins xWonBoard Mark.O = some 5 ∧
      winner (xWonBoard.set 5 (some Mark.O)) ≠ some Mark.O := by decide

theorem winner_finds_line {b : Board} {t : List Nat} {m : Mark} (ht : t ∈ threes)
    (hall : ∀ x ∈ t, cellAt b x = some m)
    (hX : m = Mark.O → ∀ t' ∈ threes, ∃ x ∈ t', cellAt b x ≠ some Mark.X) :
    winner b = some m := by
  have hpm : (threes.any fun t' => t'.all fun sq => cellAt b sq == some m) = true :=
    List.any_eq_true.mpr ⟨t, ht, List.all_eq_true.mpr fun x hx => by simp [hall x hx]⟩
  cases m with
  | X =>
    have hex : ∃ t' ∈ threes, ∀ x ∈ t', cellAt b x = some Mark.X := ⟨t, ht, hall⟩
    simpa [winner] using hex
  | O =>
    have hpX : (threes.any fun t' => t'.all fun sq => cellAt b sq == some Mark.X) = false := by
      rw [Bool.eq_false_iff]
      intro hcon
      obtain ⟨t', ht', hall'⟩ := List.any_eq_true.mp hcon
      obtain ⟨x, hx, hne⟩ := hX rfl t' ht'
      exact hne (eq_of_beq (List.all_eq_true.mp hall' x hx))
    simp [winner, hpX, hpm]

/-- C1 (amended): for every 9-cell board and every mark, if
`check_for_wins(mark)` returns a cell `c` then `c` is empty, and — provided
no line of the original board is fully occupied by the opposite mark —
placing `mark` at `c` produces a board on which `winner()` returns `mark`. -/
theorem C1_amended (b : Board) (m : Mark) (c : Nat)
    (hb : b.length = 9)
    (h : check_for_wins b m = some c)
    (hno : ∀ t ∈ threes, lineFullFor b t m.other = false) :
    cellAt b c = none ∧ winner (b.set c (some m)) = some m := by
  obtain ⟨t, ht, h2, hf⟩ := winScan_eq_some h
  have hcmem : c ∈ t := List.mem_of_find?_eq_some hf
  have hcnone : cellAt b c = none := by simpa using List.find?_some hf
  refine ⟨hcnone, ?_⟩
  obtain ⟨i, j, k, rfl, hij, hik, hjk, hi9, hj9, hk9⟩ := threes_shape t ht
  have hc9 : c < 9 := by
    rcases (by simpa using hcmem : c = i ∨ c = j ∨ c = k) with rfl | rfl | rfl <;> assumption
  have hall : ∀ x ∈ ([i, j, k] : List Nat), cellAt (b.set c (some m)) x = some m := by
    intro x hx
    by_cases hxc : x = c
    · subst hxc; exact cellAt_set_self b x (some m) (by omega)
    · rw [cellAt_set_ne b c x (some m) hxc]
      exact triple_other_cells h2 hcnone hcmem x hx hxc
  refine winner_finds_line ht hall ?_
  rintro rfl t' ht'
  by_cases hct' : c ∈ t'
  · exact ⟨c, hct', by rw [cellAt_set_self b c _ (by omega)]; simp⟩
  · by_contra hcon
    push_neg at hcon
    refine absurd (hno t' ht') ?_
    simp only [Bool.not_eq_false, lineFullFor]
    refine List.all_eq_true.mpr fun x hx => ?_
    have hxc : x ≠ c := fun hh => hct' (hh ▸ hx)
    have := hcon x hx
    rw [cellAt_set_ne b c x _ hxc] at this
    simp [this, Mark.other]

/-- Witness for C1 (amended) on the scenario-2 board, where rule 1's win
cell for X is 8. -/
theorem C1_witness :
    cellAt scenario2Board 8 = none ∧
      winner (scenario2Board.set 8 (some Mark.X)) = some Mark.X :=
  C1_amended scenario2Board Mark.X 8 (by decide) (by decide) (by decide)

/-- C9: the strategist leaves the live match state untouched — every
hypothetical board of rules 3–5 is a value copy — its result is a function
of the given board alone, and repeated queries on the unmodified state
return identical results. -/
theorem C9_frame (s : GameState) (m : Mark) :
    (computerMoveSt s m).2 = s ∧
      (computerMoveSt s m).1 = move s.board m ∧
      winner (computerMoveSt s m).2.board = winner s.board ∧
      (∀ mk, check_for_wins (computerMoveSt s m).2.board mk = check_for_wins s.board mk) ∧
      (∀ mk, check_for_twos (computerMoveSt s m).2.board mk = check_for_twos s.board mk) ∧
      (computerMoveSt (computerMoveSt s m).2 m).1 = (computerMoveSt s m).1 := by
  have hst : (computerMoveSt s m).2 = s := by
    unfold computerMoveSt
    repeat' split
    all_goals rfl
  have hmv : (computerMoveSt s m).1 = move s.board m := by
    unfold computerMoveSt move
    repeat' split
    all_goals simp_all
  refine ⟨hst, hmv, by rw [hst], fun mk => by rw [hst], fun mk => by rw [hst], by rw [hst]⟩

/-- C3: `winner()` is correct: on a board with exactly one line fully
occupied by a single mark it returns that mark; with no such line it
returns the no-winner value; and when complete lines exist for both marks
the X scan precedes the O scan, so X is returned. -/
theorem C3_winner (b : Board) :
    (∀ t ∈ threes, ∀ m : Mark, lineFullFor b t m = true →
        (threes.filter (lineFull b)).length = 1 → winner b = some m) ∧
    ((∀ t ∈ threes, lineFull b t = false) → winner b = none) ∧
    ((∃ t ∈ threes, lineFullFor b t Mark.X = true) →
      (∃ t ∈ threes, lineFullFor b t Mark.O = true) → winner b = some Mark.X) := by
  refine ⟨?_, ?_, ?_⟩
  · intro t ht m hm hcount
    have hall : ∀ x ∈ t, cellAt b x = some m :=
      fun x hx => eq_of_beq (List.all_eq_true.mp hm x hx)
    refine winner_finds_line ht hall ?_
    rintro rfl t' ht'
    by_contra hcon
    push_neg at hcon
    have hX : lineFullFor b t' Mark.X = true :=
      List.all_eq_true.mpr fun x hx => by simp [hcon x hx]
    obtain ⟨a, ha⟩ := List.length_eq_one.mp hcount
    have h1 : t ∈ threes.filter (lineFull b) :=
      List.mem_filter.mpr ⟨ht, by simp [lineFull, hm]⟩
    have h2 : t' ∈ threes.filter (lineFull b) :=
      List.mem_filter.mpr ⟨ht', by simp [lineFull, hX]⟩
    rw [ha] at h1 h2
    have htt : t = t' := by
      have e1 : t = a := by simpa using h1
      have e2 : t' = a := by simpa using h2
      rw [e1, e2]
    obtain ⟨x0, hx0⟩ : ∃ x0, x0 ∈ t := by
      obtain ⟨i, j, k, rfl, -⟩ := threes_shape t ht
      exact ⟨i, by simp⟩
    have hO : cellAt b x0 = some Mark.O := hall x0 hx0
    have hXx : cellAt b x0 = some Mark.X := hcon x0 (htt ▸ hx0)
    rw [hO] at hXx
    cases hXx
  · intro hnone
    have hX : (threes.any fun t => t.all fun sq => cellAt b sq == some Mark.X) = false := by
      rw [Bool.eq_false_iff]
      intro hcon
      obtain ⟨t, ht, hall⟩ := List.any_eq_true.mp hcon
      have := hnone t ht
      simp [lineFull, lineFullFor] at this
      exact absurd hall (by simp [this.1])
    have hO : (threes.any fun t => t.all fun sq => cellAt b sq == some Mark.O) = false := by
      rw [Bool.eq_false_iff]
      intro hcon
      obtain ⟨t, ht, hall⟩ := List.any_eq_true.mp hcon
      have := hnone t ht
      simp [lineFull, lineFullFor] at this
      exact absurd hall (by simp [this.2])
    simp [winner, hX, hO]
  · intro hXl _
    obtain ⟨t, ht, hX⟩ := hXl
    have hall : ∀ x ∈ t, cellAt b x = some Mark.X :=
      fun x hx => eq_of_beq (List.all_eq_true.mp hX x hx)
    have hex : ∃ t' ∈ threes, ∀ x ∈ t', cellAt b x = some Mark.X := ⟨t, ht, hall⟩
    simpa [winner] using hex

/-- Witness for C3 on concrete boards: a single full X row, a board with
no full line, and a board with one full line per mark. -/
theorem C3_witness :
    winner xWonBoard = some Mark.X ∧ winner scenario2Board = none ∧
      winner [some Mark.X, some Mark.X, some Mark.X,
              some Mark.O, some Mark.O, some Mark.O,
              none, none, none] = some Mark.X :=
  ⟨(C3_winner xWonBoard).1 [0, 1, 2] (by decide) Mark.X (by decide) (by decide),
   (C3_winner scenario2Board).2.1 (by decide),
   (C3_winner _).2.2 ⟨[0, 1, 2], by decide, by decide⟩ ⟨[3, 4, 5], by decide, by decide⟩⟩

/-! ### Every rule of the strategist proposes an empty cell -/

theorem rule3_empty {b : Board} {m : Mark} {c : Nat} (h : rule3 b m = some c) :
    cellAt b c = none := by
  have := List.find?_some h
  simp only [Bool.and_eq_true, beq_iff_eq] at this
  exact this.1

theorem rule5_empty {b : Board} {m : Mark} {c : Nat} (h : rule5 b m = some c) :
    cellAt b c = none := by
  have := List.find?_some h
  simp only [Bool.and_eq_true, beq_iff_eq] at this
  exact this.1

theorem mem_twosInsert_key {l : List (Nat × Nat)} {c : Nat} {q : Nat × Nat}
    (h : q ∈ twosInsert l c) : q.1 = c ∨ ∃ p ∈ l, q.1 = p.1 := by
  unfold twosInsert at h
  split at h
  · obtain ⟨p, hp, hq⟩ := List.mem_map.mp h
    by_cases hpc : (p.1 == c) = true
    · rw [if_pos hpc] at hq
      exact Or.inl (by rw [← hq]; exact eq_of_beq hpc)
    · rw [if_neg hpc] at hq
      exact Or.inr ⟨p, hp, by rw [← hq]⟩
  · rcases List.mem_append.mp h with hl | hr
    · exact Or.inr ⟨q, hl, rfl⟩
    · exact Or.inl (by simpa using congrArg Prod.fst (by simpa using hr))

theorem twosLine_keys {b : Board} {t : List Nat} {acc : List (Nat × Nat)}
    (hacc : ∀ p ∈ acc, cellAt b p.1 = none) :
    ∀ p ∈ twosLine b acc t, cellAt b p.1 = none := by
  induction t generalizing acc with
  | nil => exact hacc
  | cons x t ih =>
    unfold twosLine
    simp only [List.foldl_cons]
    refine ih ?_
    intro p hp
    by_cases hx : (cellAt b x == none) = true
    · rw [if_pos hx] at hp
      rcases mem_twosInsert_key hp with h1 | ⟨q, hq, h1⟩
      · rw [h1]; exact eq_of_beq hx
      · rw [h1]; exact hacc q hq
    · rw [if_neg hx] at hp
      exact hacc p hp

theorem twosScan_keys {b : Board} {m : Mark} {L : List (List Nat)}
    {acc : List (Nat × Nat)} (hacc : ∀ p ∈ acc, cellAt b p.1 = none) :
    ∀ p ∈ twosScan b m acc L, cellAt b p.1 = none := by
  induction L generalizing acc with
  | nil => exact hacc
  | cons t rest ih =>
    unfold twosScan
    split
    · exact ih (twosLine_keys hacc)
    · exact ih hacc

theorem check_for_twos_keys {b : Board} {m : Mark} :
    ∀ p ∈ check_for_twos b m, cellAt b p.1 = none :=
  twosScan_keys (by simp)

theorem rule4_empty {b : Board} {m : Mark} {c : Nat} (h : rule4 b m = some c) :
    cellAt b c = none := by
  have hmem := List.mem_of_find?_eq_some h
  obtain ⟨p, hp, hq⟩ := List.mem_map.mp hmem
  rw [← hq]
  exact check_for_twos_keys p hp

theorem rule6_empty {b : Board} {c : Nat} (h : rule6 b = some c) :
    cellAt b c = none := by
  unfold rule6 at h
  split at h
  · cases h; rename_i hc; exact eq_of_beq hc
  · cases h

theorem rule7_empty {b : Board} {m : Mark} {c : Nat} (h : rule7 b m = some c) :
    cellAt b c = none := by
  unfold rule7 at h
  cases hf : ([0, 2, 6, 8] : List Nat).find? fun x =>
      cellAt b x == some m.other && cellAt b (oppositeCorner x) == none with
  | none => rw [hf] at h; cases h
  | some x =>
    rw [hf] at h
    have hpred := List.find?_some hf
    simp only [Bool.and_eq_true, beq_iff_eq] at hpred
    cases h
    exact hpred.2

theorem rule8_empty {b : Board} {c : Nat} (h : rule8 b = some c) :
    cellAt b c = none := by
  unfold rule8 at h
  have hm : c ∈ ([0, 2, 6, 8] : List Nat).filter fun x => cellAt b x == none :=
    List.mem_of_mem_head? (by simp [h])
  have := (List.mem_filter.mp hm).2
  exact eq_of_beq this

theorem rule9_empty {b : Board} {c : Nat} (h : rule9 b = some c) :
    cellAt b c = none := by
  unfold rule9 at h
  have hm : c ∈ ([1, 3, 5, 7] : List Nat).filter fun x => cellAt b x == none :=
    List.mem_of_mem_head? (by simp [h])
  have := (List.mem_filter.mp hm).2
  exact eq_of_beq this

theorem move_none_parts {b : Board} {m : Mark} (h : move b m = none) :
    rule6 b = none ∧ rule8 b = none ∧ rule9 b = none := by
  unfold move at h
  split at h
  · exact absurd h (by simp)
  · split at h
    · exact absurd h (by simp)
    · split at h
      · exact absurd h (by simp)
      · split at h
        · exact absurd h (by simp)
        · unfold moveFrom5 at h
          split at h
          · exact absurd h (by simp)
          · split at h
            · exact absurd h (by simp)
            · split at h
              · exact absurd h (by simp)
              · split at h
                · exact absurd h (by simp)
                · exact ⟨by assumption, by assumption, h⟩

/-- C2: on a 9-cell board with at least one empty cell the strategist
always returns a cell, and that cell is empty on the given board; the
fall-through past rule 9 is unreachable because rules 6, 8 and 9 jointly
cover all nine cells. -/
theorem C2_move_safe (b : Board) (m : Mark) (_hb : b.length = 9)
    (hne : ∃ i, i < 9 ∧ cellAt b i = none) :
    ∃ c, move b m = some c ∧ cellAt b c = none := by
  cases hmv : move b m with
  | none =>
    exfalso
    obtain ⟨h6, h8, h9⟩ := move_none_parts hmv
    have hc4 : cellAt b 4 ≠ none := by
      unfold rule6 at h6
      split at h6
      · exact absurd h6 (by simp)
      · rename_i hcond; simpa using hcond
    have hcorners : ∀ x ∈ ([0, 2, 6, 8] : List Nat), cellAt b x ≠ none := by
      unfold rule8 at h8
      have hnil := List.head?_eq_none_iff.mp h8
      intro x hx hxe
      have := List.filter_eq_nil_iff.mp hnil x hx
      simp [hxe] at this
    have hsides : ∀ x ∈ ([1, 3, 5, 7] : List Nat), cellAt b x ≠ none := by
      unfold rule9 at h9
      have hnil := List.head?_eq_none_iff.mp h9
      intro x hx hxe
      have := List.filter_eq_nil_iff.mp hnil x hx
      simp [hxe] at this
    obtain ⟨i, hi9, hie⟩ := hne
    interval_cases i
    · exact hcorners 0 (by simp) hie
    · exact hsides 1 (by simp) hie
    · exact hcorners 2 (by simp) hie
    · exact hsides 3 (by simp) hie
    · exact hc4 hie
    · exact hsides 5 (by simp) hie
    · exact hcorners 6 (by simp) hie
    · exact hsides 7 (by simp) hie
    · exact hcorners 8 (by simp) hie
  | some c =>
    refine ⟨c, rfl, ?_⟩
    unfold move at hmv
    split at hmv
    · rename_i x h1; cases hmv; exact check_for_wins_cell_empty h1
    · split at hmv
      · rename_i x h2; cases hmv; exact check_for_wins_cell_empty h2
      · split at hmv
        · rename_i x h3; cases hmv; exact rule3_empty h3
        · split at hmv
          · rename_i x h4; cases hmv; exact rule4_empty h4
          · unfold moveFrom5 at hmv
            split at hmv
            · rename_i x h5; cases hmv; exact rule5_empty h5
            · split at hmv
              · rename_i x h6; cases hmv; exact rule6_empty h6
              · split at hmv
                · rename_i x h7; cases hmv; exact rule7_empty h7
                · split at hmv
                  · rename_i x h8; cases hmv; exact rule8_empty h8
                  · exact rule9_empty hmv

/-- Witness for C2 on the scenario-2 board (cells 6–8 empty, X to move). -/
theorem C2_witness :
    ∃ c, move scenario2Board Mark.X = some c ∧ cellAt scenario2Board c = none :=
  C2_move_safe scenario2Board Mark.X (by decide) ⟨6, by decide, by decide⟩

/-! ### Full-board behaviour -/

theorem threes_cells_lt9 : ∀ t ∈ threes, ∀ x ∈ t, x < 9 := by decide

theorem winScan_none_full {b : Board} {m : Mark} {L : List (List Nat)}
    (hL : ∀ t ∈ L, ∀ x ∈ t, cellAt b x ≠ none) : winScan b m L = none := by
  induction L with
  | nil => rfl
  | cons t rest ih =>
    rw [winScan]
    have hf : t.find? (fun c => cellAt b c == none) = none :=
      List.find?_eq_none.mpr fun x hx => by simpa using hL t (by simp) x hx
    have hrest := ih fun t' ht' => hL t' (by simp [ht'])
    split
    · rw [hf, hrest]
    · exact hrest

theorem lineHasTwoGaps_false_full {b : Board} {m : Mark} {t : List Nat}
    (ht : ∀ x ∈ t, cellAt b x ≠ none) : lineHasTwoGaps b m t = false := by
  unfold lineHasTwoGaps
  have hcount : (t.map (cellAt b)).count none = 0 := by
    rw [List.count_eq_zero]
    intro hmem
    obtain ⟨x, hx, hxe⟩ := List.mem_map.mp hmem
    exact ht x hx hxe
  simp [hcount]

theorem twosScan_nil_full {b : Board} {m : Mark} {L : List (List Nat)}
    (hL : ∀ t ∈ L, ∀ x ∈ t, cellAt b x ≠ none) : twosScan b m [] L = [] := by
  induction L with
  | nil => rfl
  | cons t rest ih =>
    rw [twosScan, lineHasTwoGaps_false_full (hL t (by simp))]
    simpa using ih fun t' ht' => hL t' (by simp [ht'])

/-- C10: on a board with no empty cell every rule of the strategist falls
through and `computer.move` returns Python's `None` — it neither raises nor
reports a violation. -/
theorem C10_full_board (b : Board) (m : Mark)
    (hfull : ∀ i < 9, cellAt b i ≠ none) : move b m = none := by
  have hlines : ∀ t ∈ threes, ∀ x ∈ t, cellAt b x ≠ none :=
    fun t ht x hx => hfull x (threes_cells_lt9 t ht x hx)
  have h1 : ∀ mk, check_for_wins b mk = none := fun mk => winScan_none_full hlines
  have h3 : ∀ mk, rule3 b mk = none := by
    intro mk
    unfold rule3
    refine List.find?_eq_none.mpr fun i hi => ?_
    intro hcon
    simp only [Bool.and_eq_true, beq_iff_eq] at hcon
    exact hfull i (List.mem_range.mp hi) hcon.1
  have h4 : ∀ mk, rule4 b mk = none := by
    intro mk
    unfold rule4 check_for_twos
    rw [twosScan_nil_full hlines]
    rfl
  have h5 : ∀ mk, rule5 b mk = none := by
    intro mk
    unfold rule5
    refine List.find?_eq_none.mpr fun i hi => ?_
    intro hcon
    simp only [Bool.and_eq_true, beq_iff_eq] at hcon
    exact hfull i (List.mem_range.mp hi) hcon.1
  have h6 : rule6 b = none := by
    unfold rule6
    rw [if_neg]
    simp only [beq_iff_eq]
    exact hfull 4 (by omega)
  have h7 : ∀ mk, rule7 b mk = none := by
    intro mk
    unfold rule7
    have hf : (([0, 2, 6, 8] : List Nat).find? fun c =>
        cellAt b c == some mk.other && cellAt b (oppositeCorner c) == none) = none := by
      refine List.find?_eq_none.mpr fun c hc => ?_
      intro hcon
      simp only [Bool.and_eq_true, beq_iff_eq] at hcon
      fin_cases hc <;> exact hfull _ (by decide) hcon.2
    rw [hf]
    rfl
  have h8 : rule8 b = none := by
    unfold rule8
    have : (([0, 2, 6, 8] : List Nat).filter fun c => cellAt b c == none) = [] := by
      refine List.filter_eq_nil_iff.mpr fun c hc => ?_
      fin_cases hc <;> simp [hfull 0 (by omega), hfull 2 (by omega),
        hfull 6 (by omega), hfull 8 (by omega)]
    rw [this]
    rfl
  have h9 : rule9 b = none := by
    unfold rule9
    have : (([1, 3, 5, 7] : List Nat).filter fun c => cellAt b c == none) = [] := by
      refine List.filter_eq_nil_iff.mpr fun c hc => ?_
      fin_cases hc <;> simp [hfull 1 (by omega), hfull 3 (by omega),
        hfull 5 (by omega), hfull 7 (by omega)]
    rw [this]
    rfl
  simp only [move, moveFrom5, h1, h3 m, h4 m, h5 m, h6, h7 m, h8, h9]

/-- Witness for C10 on a concrete full drawn board. -/
theorem C10_witness : move fullDrawBoard Mark.X = none :=
  C10_full_board fullDrawBoard Mark.X (by decide)

/-- A board holding a single X in its corner cell 0. -/
def oneXBoard : Board :=
  [some Mark.X, none, none, none, none, none, none, none, none]

/-- C6: when rules 1–3 yield nothing, the strategist's answer is rule 4's:
the first key of `check_for_twos(self)`, in dict insertion order, passing
the keep-test; the keep-test is exactly the specified one (skip a candidate
whose implied win cell is an opponent fork point of multiplicity above 1 on
the hypothetical board); and with an empty twos mapping control falls
through to rule 5. -/
theorem C6_rule4_behaviour (b : Board) (m : Mark)
    (h1 : check_for_wins b m = none) (h2 : check_for_wins b m.other = none)
    (h3 : rule3 b m = none) :
    (move b m = match rule4 b m with
                | some i => some i
                | none => moveFrom5 b m) ∧
    rule4 b m = ((check_for_twos b m).map Prod.fst).find? (rule4Keep b m) ∧
    (∀ i, rule4Keep b m i = true ↔ rule4SpecKeep b m i) ∧
    (check_for_twos b m = [] → move b m = moveFrom5 b m) := by
  have hmv : move b m = match rule4 b m with
      | some i => some i
      | none => moveFrom5 b m := by
    simp only [move, h1, h2, h3]
  refine ⟨hmv, rfl, ?_, ?_⟩
  · intro i
    simp only [rule4Keep, rule4SpecKeep]
    cases hw : check_for_wins (b.set i (some m)) m with
    | none => simp [hw]
    | some w =>
      cases hl : twosLookup (check_for_twos (b.set i (some m)) m.other) w with
      | none => simp [hw, hl]
      | some k =>
        simp only [hw, hl, decide_eq_true_eq, Option.some.injEq]
        constructor
        · intro hk hcon
          obtain ⟨w', hww, k', hk', hgt⟩ := hcon
          subst hww
          rw [hl] at hk'
          have ek : k' = k := (Option.some.inj hk').symm
          subst ek
          omega
        · intro hni
          by_contra hgt
          exact hni ⟨w, rfl, k, hl, by omega⟩
  · intro h0
    have hr4 : rule4 b m = none := by
      unfold rule4
      rw [h0]
      rfl
    rw [hmv, hr4]

/-- Witness for C6 on a board holding a single X (rules 1–3 all fall
through there). -/
theorem C6_witness :
    rule4 oneXBoard Mark.X =
      ((check_for_twos oneXBoard Mark.X).map Prod.fst).find? (rule4Keep oneXBoard Mark.X) :=
  (C6_rule4_behaviour oneXBoard Mark.X (by decide) (by decide) (by decide)).2.1

theorem countP_isSome_set {b : Board} {k : Nat} {x : Mark} (hk : k < b.length)
    (he : cellAt b k = none) :
    (b.set k (some x)).countP (fun c => c.isSome) = b.countP (fun c => c.isSome) + 1 := by
  induction b generalizing k with
  | nil => simp at hk
  | cons a t ih =>
    cases k with
    | zero =>
      have ha : a = none := he
      subst ha
      simp [List.countP_cons]
    | succ k =>
      have hrec := ih (k := k) (by simpa using hk) he
      simp only [List.set, List.countP_cons, hrec]
      omega

/-- C7: one applied move of `game.play` preserves the move-count/occupancy
invariant: a validated move lands on an empty cell (no overwrite), the move
counter goes from the occupied count to the new occupied count, the mark
written is X on an even counter and O on an odd one, and a fresh game
starts with the invariant holding. -/
theorem C7_invariant (s : GameState) (mv : Int)
    (hb : s.board.length = 9)
    (hinv : s.moves = occupiedCount s.board)
    (hok : check_move s.board mv = true) :
    cellAt s.board mv.toNat = none ∧
    (applyMove s mv.toNat).moves = occupiedCount (applyMove s mv.toNat).board ∧
    cellAt (applyMove s mv.toNat).board mv.toNat =
      some (if s.moves % 2 = 0 then Mark.X else Mark.O) ∧
    initMoves = occupiedCount initBoard := by
  have hparts : ¬ (decide (mv > 8) || decide (mv < 0)) = true ∧
      ¬ (cellAt s.board mv.toNat).isSome = true := by
    unfold check_move at hok
    by_cases h1 : (decide (mv > 8) || decide (mv < 0)) = true
    · rw [if_pos h1] at hok
      exact absurd hok (by simp)
    · rw [if_neg h1] at hok
      by_cases h2 : (cellAt s.board mv.toNat).isSome = true
      · rw [if_pos h2] at hok
        exact absurd hok (by simp)
      · exact ⟨h1, h2⟩
  obtain ⟨h1, h2⟩ := hparts
  simp only [Bool.or_eq_true, decide_eq_true_eq, not_or, not_lt] at h1
  have hlt : mv.toNat < 9 := by omega
  have hempty : cellAt s.board mv.toNat = none := by
    cases hv : cellAt s.board mv.toNat with
    | none => rfl
    | some v => rw [hv] at h2; simp at h2
  refine ⟨hempty, ?_, ?_, by decide⟩
  · show s.moves + 1 = occupiedCount ((s.board.set mv.toNat (some (moveMark s.moves))))
    unfold occupiedCount
    rw [countP_isSome_set (by omega) hempty]
    unfold occupiedCount at hinv
    omega
  · show cellAt (s.board.set mv.toNat (some (moveMark s.moves))) mv.toNat = _
    rw [cellAt_set_self _ _ _ (by omega)]
    by_cases hpar : s.moves % 2 = 0 <;> simp [moveMark, hpar]

/-- Witness for C7: the first move of a fresh game, X into the center. -/
theorem C7_witness :
    (applyMove ⟨initBoard, 0⟩ ((4 : Int).toNat)).moves =
      occupiedCount (applyMove ⟨initBoard, 0⟩ ((4 : Int).toNat)).board :=
  (C7_invariant ⟨initBoard, 0⟩ 4 (by decide) (by decide) (by decide)).2.1

/-- C8: `check_move` accepts exactly the integers in `[0,8]` aimed at an
empty cell; a rejected proposal changes nothing — the retry loop of
`game.play` asks again with the same state, hence the same participant —
and no error is raised. -/
theorem C8_check_move (b : Board) (mv : Int) (_hb : b.length = 9)
    (s : GameState) (rest : List Int) :
    (check_move b mv = true ↔ 0 ≤ mv ∧ mv ≤ 8 ∧ cellAt b mv.toNat = none) ∧
    (check_move s.board mv = false → playTurn s (mv :: rest) = playTurn s rest) := by
  constructor
  · constructor
    · intro h
      unfold check_move at h
      by_cases h1 : (decide (mv > 8) || decide (mv < 0)) = true
      · rw [if_pos h1] at h
        exact absurd h (by simp)
      · rw [if_neg h1] at h
        by_cases h2 : (cellAt b mv.toNat).isSome = true
        · rw [if_pos h2] at h
          exact absurd h (by simp)
        · simp only [Bool.or_eq_true, decide_eq_true_eq, not_or, not_lt] at h1
          refine ⟨by omega, by omega, ?_⟩
          cases hv : cellAt b mv.toNat with
          | none => rfl
          | some v => rw [hv] at h2; simp at h2
    · rintro ⟨hm0, hm8, hcell⟩
      unfold check_move
      rw [if_neg (by simp; omega), if_neg (by simp [hcell])]
  · intro h
    show (if check_move s.board mv = true then some (applyMove s mv.toNat)
          else playTurn s rest) = playTurn s rest
    rw [if_neg (by simp [h])]

/-- Witness for C8: proposal 4 on a fresh board is accepted. -/
theorem C8_witness : check_move initBoard 4 = true :=
  (C8_check_move initBoard 4 (by decide) ⟨initBoard, 0⟩ []).1.mpr
    ⟨by decide, by decide, by decide⟩

/-! ### `check_for_twos` multiplicities (claim C4) -/

/-- The multiplicity stored for `c` in a twos mapping, 0 when absent. -/
def valAt (l : List (Nat × Nat)) (c : Nat) : Nat := (twosLookup l c).getD 0

theorem find?_ext {α : Type} {p q : α → Bool} (h : ∀ a, p a = q a) (l : List α) :
    l.find? p = l.find? q := by
  induction l with
  | nil => rfl
  | cons a t ih =>
    simp only [List.find?, h a, ih]

theorem twosLookup_insert_self (l : List (Nat × Nat)) (c : Nat) :
    twosLookup (twosInsert l c) c = some (valAt l c + 1) := by
  unfold twosInsert
  by_cases hany : (l.any fun p => p.1 == c) = true
  · rw [if_pos hany]
    unfold twosLookup
    rw [List.find?_map]
    have hpf : ∀ q : Nat × Nat,
        ((fun p : Nat × Nat => p.1 == c) ∘
            fun p : Nat × Nat => if p.1 == c then (p.1, p.2 + 1) else p) q
          = (fun p : Nat × Nat => p.1 == c) q := by
      intro q
      by_cases hq : (q.1 == c) = true
      · simp [Function.comp, hq]
      · simp [Function.comp, hq]
    rw [find?_ext hpf]
    cases hfq : l.find? fun p => p.1 == c with
    | none =>
      exfalso
      obtain ⟨a, ha, hpa⟩ := List.any_eq_true.mp hany
      exact absurd hpa (by simpa using List.find?_eq_none.mp hfq a ha)
    | some q =>
      have hqc : (q.1 == c) = true := by simpa using List.find?_some hfq
      have hval : valAt l c = q.2 := by
        unfold valAt twosLookup
        rw [hfq]
        rfl
      rw [hval]
      simp [hqc]
      rw [if_pos (eq_of_beq hqc)]
  · rw [if_neg hany]
    unfold twosLookup
    rw [List.find?_append]
    have hnone : (l.find? fun p => p.1 == c) = none := by
      rw [List.find?_eq_none]
      intro p hp hpc
      exact hany (List.any_eq_true.mpr ⟨p, hp, hpc⟩)
    have hval : valAt l c = 0 := by
      unfold valAt twosLookup
      rw [hnone]
      rfl
    rw [hnone, hval]
    simp [List.find?]

theorem twosLookup_insert_ne (l : List (Nat × Nat)) (c d : Nat) (hdc : d ≠ c) :
    twosLookup (twosInsert l c) d = twosLookup l d := by
  unfold twosInsert
  by_cases hany : (l.any fun p => p.1 == c) = true
  · rw [if_pos hany]
    unfold twosLookup
    rw [List.find?_map]
    have hpf : ∀ q : Nat × Nat,
        ((fun p : Nat × Nat => p.1 == d) ∘
            fun p : Nat × Nat => if p.1 == c then (p.1, p.2 + 1) else p) q
          = (fun p : Nat × Nat => p.1 == d) q := by
      intro q
      by_cases hq : (q.1 == c) = true
      · have : q.1 = c := eq_of_beq hq
        simp [Function.comp, hq, this, Ne.symm hdc]
      · simp [Function.comp, hq]
    rw [find?_ext hpf]
    cases hfq : l.find? fun p => p.1 == d with
    | none => simp
    | some q =>
      have hqd : (q.1 == d) = true := by simpa using List.find?_some hfq
      have hqc : (q.1 == c) = false := by
        rw [eq_of_beq hqd]
        exact beq_eq_false_iff_ne.mpr fun hh => hdc hh
      simp [hqc]
      rw [if_neg (beq_eq_false_iff_ne.mp hqc)]
  · rw [if_neg hany]
    unfold twosLookup
    rw [List.find?_append]
    have hcd : (c == d) = false := beq_eq_false_iff_ne.mpr fun hh => hdc hh.symm
    cases hfq : l.find? fun p => p.1 == d with
    | none => simp [List.find?, hcd]
    | some q => simp

theorem valAt_insert_ne (l : List (Nat × Nat)) (c d : Nat) (hdc : d ≠ c) :
    valAt (twosInsert l c) d = valAt l d := by
  unfold valAt
  rw [twosLookup_insert_ne l c d hdc]

theorem twosLookup_twosLine {b : Board} {t : List Nat} (hnd : t.Nodup)
    (acc : List (Nat × Nat)) (c : Nat) :
    twosLookup (twosLine b acc t) c =
      if cellAt b c = none ∧ c ∈ t then some (valAt acc c + 1)
      else twosLookup acc c := by
  induction t generalizing acc with
  | nil => simp [twosLine]
  | cons x t ih =>
    obtain ⟨hx, hndt⟩ := List.nodup_cons.mp hnd
    have hstep : twosLine b acc (x :: t)
        = twosLine b (if (cellAt b x == none) = true then twosInsert acc x else acc) t := rfl
    rw [hstep, ih hndt]
    by_cases hcx : c = x
    · subst hcx
      rw [if_neg (fun hh => hx hh.2)]
      by_cases hce : cellAt b c = none
      · rw [if_pos (by simpa using hce), twosLookup_insert_self,
          if_pos ⟨hce, by simp⟩]
      · rw [if_neg (by simpa using hce), if_neg (fun hh => hce hh.1)]
    · have hlook : twosLookup (if (cellAt b x == none) = true
          then twosInsert acc x else acc) c = twosLookup acc c := by
        split
        · exact twosLookup_insert_ne acc x c hcx
        · rfl
      have hval : valAt (if (cellAt b x == none) = true
          then twosInsert acc x else acc) c = valAt acc c := by
        unfold valAt
        rw [hlook]
      rw [hlook, hval]
      have hmem : (cellAt b c = none ∧ c ∈ x :: t) ↔ (cellAt b c = none ∧ c ∈ t) := by
        constructor
        · rintro ⟨h1, h2⟩
          rcases List.mem_cons.mp h2 with rfl | hmt
          · exact absurd rfl hcx
          · exact ⟨h1, hmt⟩
        · rintro ⟨h1, h2⟩
          exact ⟨h1, List.mem_cons_of_mem x h2⟩
      by_cases hcond : cellAt b c = none ∧ c ∈ t
      · rw [if_pos hcond, if_pos (hmem.mpr hcond)]
      · rw [if_neg hcond, if_neg (fun hh => hcond (hmem.mp hh))]

/-- The per-line contribution test of C4, phrased over the code's own line
test: the line passes `check_for_twos`' guard, contains `c`, and `c` is
empty. -/
def codeQual (b : Board) (m : Mark) (c : Nat) (t : List Nat) : Bool :=
  lineHasTwoGaps b m t && t.contains c && (cellAt b c == none)

theorem twosLookup_twosScan {b : Board} {m : Mark} {c : Nat} {L : List (List Nat)}
    (hnd : ∀ t ∈ L, t.Nodup) (acc : List (Nat × Nat)) :
    twosLookup (twosScan b m acc L) c =
      if L.countP (codeQual b m c) = 0 then twosLookup acc c
      else some (valAt acc c + L.countP (codeQual b m c)) := by
  induction L generalizing acc with
  | nil => simp [twosScan]
  | cons t rest ih =>
    have hndt := hnd t (by simp)
    have hndrest : ∀ t' ∈ rest, t'.Nodup := fun t' ht' => hnd t' (by simp [ht'])
    rw [twosScan]
    by_cases hline : lineHasTwoGaps b m t = true
    · rw [if_pos hline, ih hndrest]
      by_cases hcell : cellAt b c = none ∧ c ∈ t
      · have hq : codeQual b m c t = true := by
          unfold codeQual
          have hcont : t.contains c = true := by simpa using hcell.2
          have hnone : (cellAt b c == none) = true := by simpa using hcell.1
          rw [hline, hcont, hnone]
          rfl
        have hlineLookup := twosLookup_twosLine (b := b) hndt acc c
        rw [if_pos hcell] at hlineLookup
        have hlineVal : valAt (twosLine b acc t) c = valAt acc c + 1 := by
          unfold valAt
          rw [hlineLookup]
          rfl
        have hcnt : (t :: rest).countP (codeQual b m c)
            = rest.countP (codeQual b m c) + 1 := by
          rw [List.countP_cons, hq]
          simp
        rw [hlineLookup, hlineVal, hcnt]
        by_cases hr : rest.countP (codeQual b m c) = 0
        · rw [if_pos hr, hr, if_neg (by omega)]
        · rw [if_neg hr, if_neg (by omega)]
          congr 1
          omega
      · have hq : codeQual b m c t = false := by
          unfold codeQual
          by_cases hc1 : cellAt b c = none
          · have hc2 : c ∉ t := fun hmemt => hcell ⟨hc1, hmemt⟩
            have hcont : t.contains c = false := by simpa using hc2
            rw [hcont, Bool.and_false, Bool.false_and]
          · have hnone : (cellAt b c == none) = false := by simpa using hc1
            rw [hnone, Bool.and_false]
        have hlineLookup := twosLookup_twosLine (b := b) hndt acc c
        rw [if_neg hcell] at hlineLookup
        have hlineVal : valAt (twosLine b acc t) c = valAt acc c := by
          unfold valAt
          rw [hlineLookup]
        have hcnt : (t :: rest).countP (codeQual b m c)
            = rest.countP (codeQual b m c) := by
          rw [List.countP_cons, hq]
          simp
        rw [hlineLookup, hlineVal, hcnt]
    · rw [if_neg hline, ih hndrest]
      have hq : codeQual b m c t = false := by
        unfold codeQual
        rw [Bool.eq_false_iff.mpr hline, Bool.false_and, Bool.false_and]
      rw [List.countP_cons, hq]
      simp

theorem twosLookup_check_for_twos (b : Board) (m : Mark) (c : Nat) :
    twosLookup (check_for_twos b m) c =
      if threes.countP (codeQual b m c) = 0 then none
      else some (threes.countP (codeQual b m c)) := by
  unfold check_for_twos
  rw [twosLookup_twosScan threes_nodup []]
  have h0 : twosLookup [] c = none := rfl
  have hv : valAt [] c = 0 := rfl
  rw [h0, hv]
  by_cases hz : threes.countP (codeQual b m c) = 0
  · rw [if_pos hz, if_pos hz]
  · rw [if_neg hz, if_neg hz]
    congr 1
    omega

theorem lineHasTwoGaps_eq_counts (b : Board) (m : Mark) (i j k : Nat) :
    lineHasTwoGaps b m [i, j, k]
      = ((([i, j, k] : List Nat).countP (fun x => cellAt b x == some m) == 1) &&
         (([i, j, k] : List Nat).countP (fun x => cellAt b x == none) == 2)) := by
  unfold lineHasTwoGaps
  rcases hi : cellAt b i with _ | mi <;> try cases mi
  all_goals rcases hj : cellAt b j with _ | mj <;> try cases mj
  all_goals rcases hk : cellAt b k with _ | mk <;> try cases mk
  all_goals cases m <;>
    simp only [List.map_cons, List.map_nil, List.countP_cons, List.countP_nil,
      hi, hj, hk] <;> decide

theorem codeQual_eq_qualLine (b : Board) (m : Mark) (c : Nat) :
    ∀ t ∈ threes, codeQual b m c t = qualLine b m c t := by
  intro t ht
  obtain ⟨i, j, k, rfl, -⟩ := threes_shape t ht
  unfold codeQual qualLine
  rw [lineHasTwoGaps_eq_counts]
  rcases hA : (([i, j, k] : List Nat).countP (fun x => cellAt b x == some m) == 1) <;>
    rcases hB : (([i, j, k] : List Nat).countP (fun x => cellAt b x == none) == 2) <;>
      rcases hC : ([i, j, k] : List Nat).contains c <;>
        rcases hD : (cellAt b c == none) <;> rfl

/-- C4: for every board, mark and cell, the multiplicity `check_for_twos`
assigns to the cell equals the number of lines through it in which the
mark occupies exactly one cell and the other two cells (the given one
among them) are empty; cells with no such line are absent from the
mapping. -/
theorem C4_check_for_twos (b : Board) (m : Mark) (c : Nat) :
    twosLookup (check_for_twos b m) c =
      if qualCount b m c = 0 then none else some (qualCount b m c) := by
  have hcnt : threes.countP (codeQual b m c) = qualCount b m c := by
    unfold qualCount
    exact List.countP_congr fun t ht => by rw [codeQual_eq_qualLine b m c t ht]
  rw [twosLookup_check_for_twos, hcnt]
